import Mathlib

/-!
Verification of the open-flash/stream binary codec: a shallow embedding of
the `ReadableStream` (reader) and `WritableStream` (writer) classes, with
theorems checking the natural-language specification against this model.

Conventions of the embedding:
* JS numbers that hold byte/integer data are modelled as `Nat` (or `Int`
  where the source can produce negative values), with explicit `% 2 ^ w`
  where JS coercions (`ToUint32` etc.) matter.
* Byte buffers (`Uint8Array`) are `List Nat`.
* Operations that `throw` in the source return `Except StreamError`.
* IEEE-754 doubles read from raw bytes are modelled by their 64-bit
  patterns (equal patterns denote equal doubles); the half-precision
  decode result is modelled exactly over `ℚ` plus infinity/NaN markers.
-/

set_option maxHeartbeats 1000000

namespace OpenFlashStream

/-- Errors raised by the streams: `IncompleteStream` (from
`createIncompleteStreamError`), the `Incident("BitOverflow", ...)` raised by
the bit-level operations, the `TypeError` of the fatal UTF-8 decoder, and the
`RangeError` of out-of-range `DataView` accesses. -/
inductive StreamError where
  | incompleteStream
  | bitOverflow
  | decodeError
  | rangeError
deriving DecidableEq

/-- JS `bytes[i]` on a `Uint8Array`, as used in contexts that feed the result
to a bitwise operator or arithmetic: an in-range access yields the stored
byte; an out-of-range access yields `undefined`, which the `ToInt32`/
`ToUint32` coercions of the bitwise operators applied to it in the source
(`& 0x7f`, `& mask`, `>>>`) turn into `0`. -/
def jsByteAt (bytes : List Nat) (i : Nat) : Nat :=
  (bytes[i]?).getD 0

/-- JS `TypedArray.prototype.subarray(s, e)` with non-negative arguments:
both indices are clamped to `[0, length]` and the result is empty when
`s ≥ e`. -/
def jsSubarray (l : List Nat) (s e : Nat) : List Nat :=
  (l.take e).drop s

/-- JS `TypedArray.prototype.subarray(s)` (one-argument form). -/
def jsSubarrayFrom (l : List Nat) (s : Nat) : List Nat :=
  l.drop s

/-- JS `TypedArray.prototype.indexOf(target, fromIdx)` with a non-negative
`fromIdx`: index of the first occurrence at or after `fromIdx`, or `-1`. -/
def jsIndexOf (l : List Nat) (target : Nat) (fromIdx : Nat) : Int :=
  match (l.drop fromIdx).findIdx? (fun b => b == target) with
  | some j => ((fromIdx + j : Nat) : Int)
  | none => -1

/-- State of `ReadableStream` (src `class ReadableStream`): the backing
bytes (`#bytes`), the cursor (`bytePos`, `bitPos`) and the logical end
(`#byteEnd`, set to `bytes.length` by the constructor). -/
structure ReadableStream where
  bytes : List Nat
  bytePos : Nat
  byteEnd : Nat
  bitPos : Nat
deriving DecidableEq

/-- `new ReadableStream(bytes, byteOffset, bitOffset)`: the `byteOffset`
argument is ignored by the source constructor; `bytePos` starts at 0,
`bitPos` at `bitOffset`, `#byteEnd` at `bytes.length`. -/
def mkReadableStream (bytes : List Nat) (bitOffset : Nat) : ReadableStream :=
  { bytes := bytes, bytePos := 0, byteEnd := bytes.length, bitPos := bitOffset }

/-- `ReadableStream.prototype.skip(size)`: `this.bytePos += size`. -/
def ReadableStream.skip (s : ReadableStream) (size : Nat) : ReadableStream :=
  { s with bytePos := s.bytePos + size }

/-- `ReadableStream.prototype.align()`. -/
def ReadableStream.align (s : ReadableStream) : ReadableStream :=
  if s.bitPos ≠ 0 then { s with bitPos := 0, bytePos := s.bytePos + 1 } else s

/-- `ReadableStream.prototype.available()`: `#byteEnd - bytePos` (a JS
number, possibly negative since `skip` does not bounds-check). -/
def ReadableStream.available (s : ReadableStream) : Int :=
  (s.byteEnd : Int) - (s.bytePos : Int)

/-- `ReadableStream.prototype.takeBytes(length)`: returns
`#bytes.subarray(bytePos, bytePos + length)` and advances `bytePos` by
`length` (no bounds check), resetting `bitPos`. -/
def ReadableStream.takeBytes (s : ReadableStream) (length : Nat) :
    List Nat × ReadableStream :=
  (jsSubarray s.bytes s.bytePos (s.bytePos + length),
   { s with bytePos := s.bytePos + length, bitPos := 0 })

/-- `ReadableStream.prototype.take(length)`: a fresh stream over
`takeBytes(length)`. -/
def ReadableStream.take (s : ReadableStream) (length : Nat) :
    ReadableStream × ReadableStream :=
  let r := s.takeBytes length
  (mkReadableStream r.1 0, r.2)

/-- `ReadableStream.prototype.tailBytes()`: returns
`#bytes.subarray(bytePos)` and moves the cursor to the end
(`bytePos = #byteEnd`, `bitPos = 0`). -/
def ReadableStream.tailBytes (s : ReadableStream) : List Nat × ReadableStream :=
  (jsSubarrayFrom s.bytes s.bytePos, { s with bytePos := s.byteEnd, bitPos := 0 })

/-- `ReadableStream.prototype.tail()`:
`new ReadableStream(this.tailBytes(), 0, this.bitPos)`. JS evaluates the
constructor arguments left to right, so `this.tailBytes()` runs (and resets
`this.bitPos` to 0) before `this.bitPos` is read; the new stream therefore
always receives bit offset 0. -/
def ReadableStream.tail (s : ReadableStream) : ReadableStream × ReadableStream :=
  let r := s.tailBytes
  (mkReadableStream r.1 r.2.bitPos, r.2)

/-- The `for` loop of `readUint32Leb128` (iterations `i` to 4): each step
reads `#bytes[bytePos++]` (out-of-range yields 0, see `jsByteAt`), adds
`(b & 0x7f) << (7 * i)` for `i < 4` (all intermediate values fit below
`2 ^ 31`, so the JS signed shift agrees with the `Nat` shift) or
`(b & 0x0f) * 2 ^ 28` for `i = 4`, and stops when bit 7 of the byte is
clear. -/
def ReadableStream.readUint32Leb128Go (s : ReadableStream) (result i : Nat) :
    Nat × ReadableStream :=
  if h : i < 5 then
    let nextByte := jsByteAt s.bytes s.bytePos
    let s1 := { s with bytePos := s.bytePos + 1 }
    let result1 :=
      if i < 4 then result + ((nextByte &&& 0x7f) <<< (7 * i))
      else result + (nextByte &&& 0x0f) * 2 ^ 28
    if nextByte &&& (1 <<< 7) = 0 then (result1, s1)
    else ReadableStream.readUint32Leb128Go s1 result1 (i + 1)
  else (result, s)
termination_by 5 - i

/-- `ReadableStream.prototype.readUint32Leb128()`. -/
def ReadableStream.readUint32Leb128 (s : ReadableStream) : Nat × ReadableStream :=
  ReadableStream.readUint32Leb128Go s 0 0

/-- The `while` loop of the private `readUintBits(n)`: consumes `n` bits
most-significant-first, one byte at a time, accumulating
`result = result * shift + cur`. The source loop keeps `0 ≤ bitPos < 8`
between iterations; outside that range the JS loop would not terminate, so
the (unreachable) `bitPos ≥ 8` case returns the state unchanged. -/
def ReadableStream.readUintBitsGo (s : ReadableStream) (result n : Nat) :
    Nat × ReadableStream :=
  if hn : n = 0 then (result, s)
  else if s.bitPos + n < 8 then
    let endBitPos := s.bitPos + n
    let shift := 1 <<< (endBitPos - s.bitPos)
    let cur := (jsByteAt s.bytes s.bytePos >>> (8 - endBitPos)) &&& (shift - 1)
    (result * shift + cur, { s with bitPos := endBitPos })
  else if h8 : s.bitPos < 8 then
    let shift := 1 <<< (8 - s.bitPos)
    let cur := jsByteAt s.bytes s.bytePos &&& (shift - 1)
    ReadableStream.readUintBitsGo
      { s with bitPos := 0, bytePos := s.bytePos + 1 }
      (result * shift + cur) (n - (8 - s.bitPos))
  else (result, s)
termination_by n
decreasing_by omega

/-- Private `readUintBits(n)`: throws `BitOverflow` when `n > 32`, else runs
the bit-consuming loop. -/
def ReadableStream.readUintBits (s : ReadableStream) (n : Nat) :
    Except StreamError (Nat × ReadableStream) :=
  if 32 < n then .error .bitOverflow
  else .ok (ReadableStream.readUintBitsGo s 0 n)

/-- Private `readSintBits(n)`: 0 for `n = 0`, else the unsigned read
reinterpreted as two's complement (`unsigned < 2 ^ (n-1)` kept, otherwise
`-2 ^ n + unsigned`). -/
def ReadableStream.readSintBits (s : ReadableStream) (n : Nat) :
    Except StreamError (Int × ReadableStream) :=
  if n = 0 then .ok (0, s)
  else
    match s.readUintBits n with
    | .error e => .error e
    | .ok (unsigned, s1) =>
      if (unsigned : Int) < 2 ^ (n - 1) then .ok ((unsigned : Int), s1)
      else .ok (-(2 ^ n : Int) + (unsigned : Int), s1)

/-- `skipBits(n)`: `readUintBits(n)` with the value discarded. -/
def ReadableStream.skipBits (s : ReadableStream) (n : Nat) :
    Except StreamError ReadableStream :=
  (s.readUintBits n).map (fun r => r.2)

/-- `readBoolBits()`: `readUintBits(1) > 0`. -/
def ReadableStream.readBoolBits (s : ReadableStream) :
    Except StreamError (Bool × ReadableStream) :=
  (s.readUintBits 1).map (fun r => (decide (0 < r.1), r.2))

/-- `readUint32Bits(n)`: delegates to `readUintBits`. -/
def ReadableStream.readUint32Bits (s : ReadableStream) (n : Nat) :
    Except StreamError (Nat × ReadableStream) :=
  s.readUintBits n

/-- `readSint32Bits(n)`: delegates to `readSintBits`. -/
def ReadableStream.readSint32Bits (s : ReadableStream) (n : Nat) :
    Except StreamError (Int × ReadableStream) :=
  s.readSintBits n

/-- The `for (; i < leftLen; i++)` loop of `ReadableStream.equals`: compares
`left.#bytes[left.bytePos + i] !== right.#bytes[right.bytePos + i]` for each
remaining index. The raw `!==` compares the accessed values directly
(`undefined !== undefined` is false), so indexing is modelled as
`Option Nat` here. -/
def ReadableStream.equalsLoop (lb rb : List Nat) (lp rp i len : Nat) : Bool :=
  if _h : i < len then
    if lb[lp + i]? = rb[rp + i]? then ReadableStream.equalsLoop lb rb lp rp (i + 1) len
    else false
  else true
termination_by len - i

/-- `ReadableStream.equals(left, right)` (static): bit offsets must match,
remaining lengths (`#byteEnd - bytePos`, JS numbers, possibly negative) must
match; an empty remainder compares equal; when `bitPos ≠ 0` the first byte is
compared under the mask `(1 << (8 - bitPos)) - 1` and the byte loop starts at
index 1, else at index 0. (`leftLen.toNat` is the iteration count of the JS
loop: zero when `leftLen ≤ 0`.) -/
def ReadableStream.equals (l r : ReadableStream) : Bool :=
  if l.bitPos ≠ r.bitPos then false
  else
    let leftLen : Int := (l.byteEnd : Int) - (l.bytePos : Int)
    let rightLen : Int := (r.byteEnd : Int) - (r.bytePos : Int)
    if leftLen ≠ rightLen then false
    else if leftLen = 0 then true
    else if l.bitPos ≠ 0 then
      let mask := (1 <<< (8 - l.bitPos)) - 1
      if (jsByteAt l.bytes l.bytePos &&& mask) ≠ (jsByteAt r.bytes r.bytePos &&& mask) then
        false
      else ReadableStream.equalsLoop l.bytes r.bytes l.bytePos r.bytePos 1 leftLen.toNat
    else ReadableStream.equalsLoop l.bytes r.bytes l.bytePos r.bytePos 0 leftLen.toNat

/-- Strict UTF-8 decoding to code points, modelling the platform builtin
`new TextDecoder("UTF-8", {fatal: true})` used by the source: the WHATWG
UTF-8 decoder, rejecting (instead of replacing) invalid sequences —
truncated sequences, bad continuation bytes, overlong encodings, surrogate
code points and values above `U+10FFFF`. -/
def utf8Decode : List Nat → Option (List Nat)
  | [] => some []
  | b :: rest =>
    if b < 0x80 then (utf8Decode rest).map (fun cps => b :: cps)
    else if 0xc2 ≤ b ∧ b ≤ 0xdf then
      match rest with
      | b1 :: rest1 =>
        if 0x80 ≤ b1 ∧ b1 ≤ 0xbf then
          (utf8Decode rest1).map (fun cps => ((b - 0xc0) * 64 + (b1 - 0x80)) :: cps)
        else none
      | [] => none
    else if 0xe0 ≤ b ∧ b ≤ 0xef then
      match rest with
      | b1 :: b2 :: rest2 =>
        let lo1 := if b = 0xe0 then 0xa0 else 0x80
        let hi1 := if b = 0xed then 0x9f else 0xbf
        if lo1 ≤ b1 ∧ b1 ≤ hi1 ∧ 0x80 ≤ b2 ∧ b2 ≤ 0xbf then
          (utf8Decode rest2).map
            (fun cps => ((b - 0xe0) * 4096 + (b1 - 0x80) * 64 + (b2 - 0x80)) :: cps)
        else none
      | _ => none
    else if 0xf0 ≤ b ∧ b ≤ 0xf4 then
      match rest with
      | b1 :: b2 :: b3 :: rest3 =>
        let lo1 := if b = 0xf0 then 0x90 else 0x80
        let hi1 := if b = 0xf4 then 0x8f else 0xbf
        if lo1 ≤ b1 ∧ b1 ≤ hi1 ∧ 0x80 ≤ b2 ∧ b2 ≤ 0xbf ∧ 0x80 ≤ b3 ∧ b3 ≤ 0xbf then
          (utf8Decode rest3).map
            (fun cps =>
              ((b - 0xf0) * 262144 + (b1 - 0x80) * 4096 + (b2 - 0x80) * 64 + (b3 - 0x80)) :: cps)
        else none
      | _ => none
    else none

/-- `ReadableStream.prototype.readNulUtf8()`: `#bytes.indexOf(0, bytePos)`;
`IncompleteStream` when no NUL is found; else decodes
`#bytes.subarray(bytePos, endOfString)` strictly and sets
`bytePos = endOfString + 1`. The decoded string is modelled as its list of
code points. -/
def ReadableStream.readNulUtf8 (s : ReadableStream) :
    Except StreamError (List Nat × ReadableStream) :=
  let endOfString : Int := jsIndexOf s.bytes 0 s.bytePos
  if endOfString < 0 then .error .incompleteStream
  else
    match utf8Decode (jsSubarray s.bytes s.bytePos endOfString.toNat) with
    | none => .error .decodeError
    | some cps => .ok (cps, { s with bytePos := endOfString.toNat + 1 })

/-- `ReadableStream.prototype.readUtf8(byteLength)`. -/
def ReadableStream.readUtf8 (s : ReadableStream) (byteLength : Nat) :
    Except StreamError (List Nat × ReadableStream) :=
  let endOfString := s.bytePos + byteLength
  if endOfString > s.bytes.length then .error .incompleteStream
  else
    match utf8Decode (jsSubarray s.bytes s.bytePos endOfString) with
    | none => .error .decodeError
    | some cps => .ok (cps, { s with bytePos := endOfString })

/-- `DataView.prototype.getUint32(pos, true)` over the reader's view (which
covers exactly `#bytes`): the little-endian 32-bit value of the 4 bytes at
`pos`, or a `RangeError` when fewer than 4 bytes are in range. -/
def ReadableStream.viewGetUint32LE (s : ReadableStream) (pos : Nat) :
    Except StreamError Nat :=
  if pos + 4 ≤ s.bytes.length then
    .ok (jsByteAt s.bytes pos + jsByteAt s.bytes (pos + 1) * 2 ^ 8 +
      jsByteAt s.bytes (pos + 2) * 2 ^ 16 + jsByteAt s.bytes (pos + 3) * 2 ^ 24)
  else .error .rangeError

/-- `DataView.prototype.getFloat64(pos, true)`, modelled by the 64-bit
pattern it reinterprets: the little-endian assembly of the 8 bytes at `pos`
(equal patterns denote equal IEEE-754 doubles), or a `RangeError` when fewer
than 8 bytes are in range. -/
def ReadableStream.viewGetFloat64LEPattern (s : ReadableStream) (pos : Nat) :
    Except StreamError Nat :=
  if pos + 8 ≤ s.bytes.length then
    .ok (jsByteAt s.bytes pos + jsByteAt s.bytes (pos + 1) * 2 ^ 8 +
      jsByteAt s.bytes (pos + 2) * 2 ^ 16 + jsByteAt s.bytes (pos + 3) * 2 ^ 24 +
      jsByteAt s.bytes (pos + 4) * 2 ^ 32 + jsByteAt s.bytes (pos + 5) * 2 ^ 40 +
      jsByteAt s.bytes (pos + 6) * 2 ^ 48 + jsByteAt s.bytes (pos + 7) * 2 ^ 56)
  else .error .rangeError

/-- `ReadableStream.prototype.readFloat64LE()`: `getFloat64(bytePos, true)`
(as a 64-bit pattern), then `bytePos += 8`. -/
def ReadableStream.readFloat64LE (s : ReadableStream) :
    Except StreamError (Nat × ReadableStream) :=
  (s.viewGetFloat64LEPattern s.bytePos).map
    (fun v => (v, { s with bytePos := s.bytePos + 8 }))

/-- `ReadableStream.prototype.readFloat64LE32()`: copies
`getUint32(bytePos + 4, true)` to bytes 0–3 of the scratch buffer and
`getUint32(bytePos, true)` to bytes 4–7, reads the scratch buffer as a
little-endian double (pattern `w0 + w1 * 2 ^ 32`), then `bytePos += 8`.
The first `getUint32` call is evaluated first, matching JS order. -/
def ReadableStream.readFloat64LE32 (s : ReadableStream) :
    Except StreamError (Nat × ReadableStream) := do
  let w0 ← s.viewGetUint32LE (s.bytePos + 4)
  let w1 ← s.viewGetUint32LE s.bytePos
  .ok (w0 + w1 * 2 ^ 32, { s with bytePos := s.bytePos + 8 })

/-- Result of the half-precision decode `reinterpretUint16AsFloat16`: the
finite results are exact dyadic rationals (every arithmetic step of the
source is exact in an IEEE-754 double), so a finite result is modelled over
`ℚ`, with markers for `±Infinity` and `NaN`. -/
inductive Float16Val where
  | finite (q : ℚ)
  | inf (sign : Int)
  | nan
deriving DecidableEq

/-- `reinterpretUint16AsFloat16(u16)` (module-level helper in the reader
source): sign from bit 15, exponent from bits 10–14 (`(u16 & 0x7c00) >>> 10`),
fraction from bits 0–9 (`u16 & 0x03ff`); subnormal, infinity/NaN and normal
branches as in the source. -/
def reinterpretUint16AsFloat16 (u16 : Nat) : Float16Val :=
  let sign : Int := if u16 &&& (1 <<< 15) ≠ 0 then -1 else 1
  let exponent : Nat := (u16 &&& 0x7c00) >>> 10
  let fraction : Nat := u16 &&& 0x03ff
  if exponent = 0 then
    .finite ((sign : ℚ) * (2 : ℚ) ^ (-14 : Int) * ((fraction : ℚ) / 1024))
  else if exponent = 0x1f then
    if fraction = 0 then .inf sign else .nan
  else
    .finite ((sign : ℚ) * (2 : ℚ) ^ ((exponent : Int) - 15) * (1 + (fraction : ℚ) / 1024))

/-- State of `WritableStream` (src/src/lib/writable.ts): cursor, chunk
sequence (`#chunks`) and the bit accumulator byte (`#bitsBuffer`). -/
structure WritableStream where
  bytePos : Nat
  bitPos : Nat
  chunks : List (List Nat)
  bitsBuffer : Nat
deriving DecidableEq

/-- `new WritableStream()`. -/
def mkWritableStream : WritableStream :=
  { bytePos := 0, bitPos := 0, chunks := [], bitsBuffer := 0 }

/-- Modelled from the spec: `concatBytes` (src/lib/concat-bytes.js is not
among the provided sources); per the spec it "concatenates the chunk
sequence into one contiguous owned buffer". -/
def concatBytes (chunks : List (List Nat)) : List Nat :=
  chunks.flatten

/-- `WritableStream.prototype.writeUint8(value)`: pushes
`Buffer.from([value & 0xff])` and increments `bytePos`. -/
def WritableStream.writeUint8 (s : WritableStream) (value : Nat) : WritableStream :=
  { s with chunks := s.chunks ++ [[value &&& 0xff]], bytePos := s.bytePos + 1 }

/-- `WritableStream.prototype.writeBytes(value)`. -/
def WritableStream.writeBytes (s : WritableStream) (value : List Nat) : WritableStream :=
  { s with chunks := s.chunks ++ [value], bytePos := s.bytePos + value.length }

/-- The `while` loop of `writeUint32Leb128`: emits the low 7 bits of the
remaining value per byte (`value % 0x80`, then `value` becomes
`(value - nextByte) / 0x80`, i.e. `value / 128`), with the continuation bit
ORed in whenever the remaining value is nonzero; at least one byte is always
emitted (`chunk.length === 0` disjunct). -/
def leb128Encode (value : Nat) : List Nat :=
  if _h : value < 0x80 then [value]
  else ((value % 0x80) ||| 0x80) :: leb128Encode (value / 0x80)
termination_by value
decreasing_by exact Nat.div_lt_self (by omega) (by omega)

/-- `WritableStream.prototype.writeUint32Leb128(value)`: pushes the encoded
chunk and advances `bytePos` by its length. -/
def WritableStream.writeUint32Leb128 (s : WritableStream) (value : Nat) :
    WritableStream :=
  let chunk := leb128Encode value
  { s with chunks := s.chunks ++ [chunk], bytePos := s.bytePos + chunk.length }

/-- `WritableStream.prototype.getBytes()`: concatenates `#chunks`, replaces
`#chunks` with the singleton of the result, and returns it. -/
def WritableStream.getBytes (s : WritableStream) : List Nat × WritableStream :=
  let bytes := concatBytes s.chunks
  (bytes, { s with chunks := [bytes] })

/-- JS `value >>> k` for a possibly negative JS number `value`: `ToUint32`
of the left operand, shift count taken mod 32. -/
def jsShrU (v : Int) (k : Nat) : Nat :=
  (v % 2 ^ 32).toNat >>> (k % 32)

/-- The `while` loop of the private `writeUintBits(bits, value)`: fills the
current accumulator byte with the high-order remaining bits of `value`,
flushing the byte through `writeUint8` whenever it becomes full. The source
keeps `0 ≤ bitPos ≤ 7` between iterations; outside that range the JS loop
would not terminate, so the (unreachable) `bitPos ≥ 8` case returns the
state unchanged. -/
def WritableStream.writeUintBitsGo (s : WritableStream) (bits : Nat) (value : Int) :
    WritableStream :=
  if _hb : bits = 0 then s
  else if _h8 : s.bitPos < 8 then
    let availableBits := 8 - s.bitPos
    let consumedBits := min availableBits bits
    let chunk := jsShrU value (bits - consumedBits) &&& ((1 <<< consumedBits) - 1)
    let s1 : WritableStream :=
      { s with bitsBuffer := s.bitsBuffer ||| (chunk <<< (availableBits - consumedBits)),
               bitPos := s.bitPos + consumedBits }
    let s2 : WritableStream :=
      if s1.bitPos = 8 then
        { s1.writeUint8 s1.bitsBuffer with bitsBuffer := 0, bitPos := 0 }
      else s1
    WritableStream.writeUintBitsGo s2 (bits - consumedBits) value
  else s
termination_by bits
decreasing_by omega

/-- Private `writeUintBits(bits, value)`: throws `BitOverflow` when
`bits > 32`, else runs the bit-filling loop. -/
def WritableStream.writeUintBits (s : WritableStream) (bits : Nat) (value : Int) :
    Except StreamError WritableStream :=
  if 32 < bits then .error .bitOverflow
  else .ok (s.writeUintBitsGo bits value)

/-- Private `writeSintBits(bits, value)`: negative values are mapped to
`2 ^ bits + value` before delegating to `writeUintBits`. -/
def WritableStream.writeSintBits (s : WritableStream) (bits : Nat) (value : Int) :
    Except StreamError WritableStream :=
  if value < 0 then s.writeUintBits bits ((2 : Int) ^ bits + value)
  else s.writeUintBits bits value

/-- `writeUint32Bits(n, value)`: delegates to `writeUintBits`. -/
def WritableStream.writeUint32Bits (s : WritableStream) (n : Nat) (value : Int) :
    Except StreamError WritableStream :=
  s.writeUintBits n value

/-- `writeSint32Bits(n, value)`: delegates to `writeSintBits`. -/
def WritableStream.writeSint32Bits (s : WritableStream) (n : Nat) (value : Int) :
    Except StreamError WritableStream :=
  s.writeSintBits n value

/-- Stated from the spec's words, for comparison with
`ReadableStream.equals`: the byte content a reader exposes to the equality
comparison — its remaining bytes from the cursor to the end, with the first
(then partially consumed) byte masked to its low `8 - bitPos` bits when
`bitPos ≠ 0`. -/
def specMaskedRemaining (s : ReadableStream) : List Nat :=
  match s.bytes.drop s.bytePos with
  | [] => []
  | b :: rest =>
    (if s.bitPos ≠ 0 then b &&& ((1 <<< (8 - s.bitPos)) - 1) else b) :: rest

/-! ## Theorems -/

/-- C10: `tail()` always returns a reader with `bitPos = 0` (JS evaluates
`this.tailBytes()` before the `this.bitPos` constructor argument, and
`tailBytes` resets `bitPos`), and after `tail()` or `tailBytes()` the
original reader's cursor sits at `byteEnd` with `bitPos = 0`. -/
theorem C10_tail_resets_bitPos (s : ReadableStream) :
    s.tail.1.bitPos = 0 ∧
    (s.tail.2.bytePos = s.byteEnd ∧ s.tail.2.bitPos = 0) ∧
    (s.tailBytes.2.bytePos = s.byteEnd ∧ s.tailBytes.2.bitPos = 0) := by
  simp [ReadableStream.tail, ReadableStream.tailBytes, mkReadableStream]

/-- C9: calling `getBytes()` twice with no writes in between yields
byte-identical buffers, and the first call replaces the chunk sequence with
the singleton of the returned buffer. -/
theorem C9_getBytes_idempotent (w : WritableStream) :
    w.getBytes.2.getBytes.1 = w.getBytes.1 ∧
    w.getBytes.2.chunks = [w.getBytes.1] := by
  simp [WritableStream.getBytes, concatBytes]

/-- C1 fails as stated: `skip` does not bounds-check, so on an empty reader
`skip(1)` succeeds and leaves `bytePos = 1 > byteEnd = 0`; likewise
`readUint32Leb128` on an empty reader does not fail — the out-of-range
access behaves as a zero byte, and the read returns 0 with
`bytePos = 1 > byteEnd = 0`. -/
theorem C1_counterexample :
    ¬ (((mkReadableStream [] 0).skip 1).bytePos ≤ (mkReadableStream [] 0).byteEnd ∧
       (mkReadableStream [] 0).readUint32Leb128.2.bytePos ≤
         (mkReadableStream [] 0).byteEnd) := by
  intro h
  have h1 : ((mkReadableStream [] 0).skip 1).bytePos = 1 := by
    simp [mkReadableStream, ReadableStream.skip]
  have h2 : (mkReadableStream [] 0).byteEnd = 0 := by
    simp [mkReadableStream]
  omega

/-- Helper for C1: each iteration of the `readUint32Leb128` loop advances
`bytePos` by one, and at most `5 - i` iterations remain. -/
theorem readUint32Leb128Go_bytePos_le :
    ∀ fuel s result i, 5 - i ≤ fuel →
      (ReadableStream.readUint32Leb128Go s result i).2.bytePos ≤ s.bytePos + (5 - i) := by
  intro fuel
  induction fuel with
  | zero =>
    intro s result i hf
    have hi : ¬ i < 5 := by omega
    rw [ReadableStream.readUint32Leb128Go]
    simp [hi]
  | succ k ih =>
    intro s result i hf
    rw [ReadableStream.readUint32Leb128Go]
    by_cases hi : i < 5
    · simp only [hi, dif_pos]
      split
      · simp; omega
      · have := ih { s with bytePos := s.bytePos + 1 }
          (if i < 4 then result + ((jsByteAt s.bytes s.bytePos &&& 0x7f) <<< (7 * i))
           else result + (jsByteAt s.bytes s.bytePos &&& 0x0f) * 2 ^ 28)
          (i + 1) (by omega)
        simp only at this ⊢
        omega
    · simp [hi]

/-- C1 amended: `skip(n)` and `takeBytes(n)` never fail and add `n` to
`bytePos` unconditionally, so they preserve `bytePos ≤ byteEnd` (only) when
`n` bytes remain; `readUint32Leb128` never fails — an out-of-end access
yields a zero byte that terminates the loop — and it advances `bytePos` by
at most 5, so it preserves `bytePos ≤ byteEnd` when at least 5 bytes
remain. -/
theorem C1_amended (s : ReadableStream) (n : Nat) :
    (s.bytePos + n ≤ s.byteEnd →
      (s.skip n).bytePos ≤ s.byteEnd ∧ (s.takeBytes n).2.bytePos ≤ s.byteEnd) ∧
    s.readUint32Leb128.2.bytePos ≤ s.bytePos + 5 ∧
    (s.bytePos + 5 ≤ s.byteEnd → s.readUint32Leb128.2.bytePos ≤ s.byteEnd) := by
  have hgo := readUint32Leb128Go_bytePos_le 5 s 0 0 (by omega)
  refine ⟨fun h => ⟨?_, ?_⟩, ?_, fun h => ?_⟩
  · simp [ReadableStream.skip]; omega
  · simp [ReadableStream.takeBytes]; omega
  · simpa [ReadableStream.readUint32Leb128] using hgo
  · simp only [ReadableStream.readUint32Leb128] at *
    omega

/-- Witness for C1 amended, on a 5-byte reader. -/
theorem C1_amended_witness :
    (((mkReadableStream [7, 7, 7, 7, 7] 0).skip 2).bytePos ≤
        (mkReadableStream [7, 7, 7, 7, 7] 0).byteEnd ∧
      ((mkReadableStream [7, 7, 7, 7, 7] 0).takeBytes 2).2.bytePos ≤
        (mkReadableStream [7, 7, 7, 7, 7] 0).byteEnd) ∧
    (mkReadableStream [7, 7, 7, 7, 7] 0).readUint32Leb128.2.bytePos ≤
      (mkReadableStream [7, 7, 7, 7, 7] 0).byteEnd :=
  ⟨(C1_amended (mkReadableStream [7, 7, 7, 7, 7] 0) 2).1 (by decide),
   (C1_amended (mkReadableStream [7, 7, 7, 7, 7] 0) 2).2.2 (by decide)⟩

/-- C6: `readSintBits(n)` is the two's-complement reinterpretation of the
unsigned bits read by `readUintBits(n)` — `u - 2 ^ n` when
`u ≥ 2 ^ (n - 1)`, `u` otherwise — and `readSintBits(0)` returns 0 with the
cursor unmoved. -/
theorem C6_readSintBits_twos_complement (s : ReadableStream) (n : Nat) :
    s.readSintBits n =
      if n = 0 then .ok (0, s)
      else
        (s.readUintBits n).map fun r =>
          (if (2 : Int) ^ (n - 1) ≤ (r.1 : Int) then (r.1 : Int) - 2 ^ n
           else (r.1 : Int), r.2) := by
  unfold ReadableStream.readSintBits
  by_cases hn : n = 0
  · simp [hn]
  · simp only [hn, if_false]
    cases h : s.readUintBits n with
    | error e => simp [Except.map]
    | ok r =>
      obtain ⟨u, s1⟩ := r
      simp only [Except.map]
      by_cases hlt : (u : Int) < 2 ^ (n - 1)
      · rw [if_pos hlt, if_neg (by omega)]
      · rw [if_neg hlt, if_pos (by omega)]
        congr 2
        omega

/-- C4: for any 8 bytes, `readFloat64LE32` yields the same 64-bit double
pattern (hence the same double) as `readFloat64LE` on the word-swapped
sequence, and both advance `bytePos` by 8. -/
theorem C4_readFloat64LE32_wordswap (b0 b1 b2 b3 b4 b5 b6 b7 : Nat) :
    ((mkReadableStream [b0, b1, b2, b3, b4, b5, b6, b7] 0).readFloat64LE32.toOption.map
        (fun r => r.1) =
      (mkReadableStream [b4, b5, b6, b7, b0, b1, b2, b3] 0).readFloat64LE.toOption.map
        (fun r => r.1)) ∧
    ((mkReadableStream [b0, b1, b2, b3, b4, b5, b6, b7] 0).readFloat64LE32.toOption.map
        (fun r => r.2.bytePos) = some 8) ∧
    ((mkReadableStream [b4, b5, b6, b7, b0, b1, b2, b3] 0).readFloat64LE.toOption.map
        (fun r => r.2.bytePos) = some 8) := by
  refine ⟨?_, ?_, ?_⟩ <;>
    simp [mkReadableStream, ReadableStream.readFloat64LE32, ReadableStream.readFloat64LE,
      ReadableStream.viewGetUint32LE, ReadableStream.viewGetFloat64LEPattern, jsByteAt,
      Except.toOption, bind, Except.bind, Except.map]
  ring

/-- C3: every bit-level read (`readUintBits`, `readUint32Bits`,
`readSint32Bits`, `skipBits`) and bit-level write (`writeUintBits`,
`writeUint32Bits`, `writeSint32Bits`) with width `n` fails with
`BitOverflow` exactly when `n > 32`; for `n ≤ 32` no `BitOverflow` is
raised. -/
theorem C3_bitOverflow_iff (n : Nat) (s : ReadableStream) (w : WritableStream) (v : Int) :
    (s.readUintBits n = .error .bitOverflow ↔ 32 < n) ∧
    (s.readUint32Bits n = .error .bitOverflow ↔ 32 < n) ∧
    (s.readSint32Bits n = .error .bitOverflow ↔ 32 < n) ∧
    (s.skipBits n = .error .bitOverflow ↔ 32 < n) ∧
    (w.writeUintBits n v = .error .bitOverflow ↔ 32 < n) ∧
    (w.writeUint32Bits n v = .error .bitOverflow ↔ 32 < n) ∧
    (w.writeSint32Bits n v = .error .bitOverflow ↔ 32 < n) := by
  by_cases h32 : 32 < n
  · have hn0 : n ≠ 0 := by omega
    simp [ReadableStream.readUintBits, ReadableStream.readUint32Bits,
      ReadableStream.readSint32Bits, ReadableStream.readSintBits, ReadableStream.skipBits,
      WritableStream.writeUintBits, WritableStream.writeUint32Bits,
      WritableStream.writeSint32Bits, WritableStream.writeSintBits, Except.map, h32, hn0]
  · simp only [ReadableStream.readUintBits, ReadableStream.readUint32Bits,
      ReadableStream.readSint32Bits, ReadableStream.readSintBits, ReadableStream.skipBits,
      WritableStream.writeUintBits, WritableStream.writeUint32Bits,
      WritableStream.writeSint32Bits, WritableStream.writeSintBits, Except.map, h32,
      if_false]
    refine ⟨by simp [h32], by simp [h32], ?_, by simp [h32], by simp [h32], by simp [h32], ?_⟩
    · by_cases hn : n = 0
      · simp [hn]
      · simp only [hn, if_false, h32, if_false]
        split <;> simp [h32]
    · split <;> simp [h32]

/-- Right shift distributes over bitwise and. -/
theorem shiftRight_and_distrib (x y k : Nat) :
    (x &&& y) >>> k = (x >>> k) &&& (y >>> k) := by
  apply Nat.eq_of_testBit_eq
  intro i
  simp [Nat.testBit_shiftRight, Nat.testBit_and]

/-- Extracting the sign bit: `x & 0x8000` is `2 ^ 15` times bit 15. -/
theorem and_0x8000_eq (x : Nat) : x &&& 0x8000 = 2 ^ 15 * (x / 2 ^ 15 % 2) := by
  have hc0 : (0x8000 : Nat) &&& (2 ^ 15 - 1) = 0 := by decide
  have h1 : (x &&& 0x8000) % 2 ^ 15 = 0 := by
    calc (x &&& 0x8000) % 2 ^ 15
        = (x &&& 0x8000) &&& (2 ^ 15 - 1) := (Nat.and_pow_two_sub_one_eq_mod _ _).symm
      _ = x &&& (0x8000 &&& (2 ^ 15 - 1)) := Nat.and_assoc _ _ _
      _ = 0 := by rw [hc0, Nat.and_zero]
  have h2 : (x &&& 0x8000) / 2 ^ 15 = x / 2 ^ 15 % 2 := by
    have hs : (x &&& 0x8000) >>> 15 = (x >>> 15) &&& (0x8000 >>> 15) :=
      shiftRight_and_distrib x 0x8000 15
    have hc : (0x8000 : Nat) >>> 15 = 1 := by decide
    rw [hc] at hs
    rw [← Nat.shiftRight_eq_div_pow, hs, Nat.and_one_is_mod, Nat.shiftRight_eq_div_pow]
  omega

/-- Extracting the exponent field: `(x & 0x7c00) >>> 10` is bits 10–14. -/
theorem and_0x7c00_shift_eq (x : Nat) : (x &&& 0x7c00) >>> 10 = x / 2 ^ 10 % 2 ^ 5 := by
  have hs : (x &&& 0x7c00) >>> 10 = (x >>> 10) &&& (0x7c00 >>> 10) :=
    shiftRight_and_distrib x 0x7c00 10
  have hc : (0x7c00 : Nat) >>> 10 = 2 ^ 5 - 1 := by decide
  rw [hs, hc, Nat.and_pow_two_sub_one_eq_mod, Nat.shiftRight_eq_div_pow]

/-- Extracting the fraction field: `x & 0x03ff` is the low 10 bits. -/
theorem and_0x03ff_eq (x : Nat) : x &&& 0x03ff = x % 2 ^ 10 := by
  have : (0x03ff : Nat) = 2 ^ 10 - 1 := by norm_num
  rw [this, Nat.and_pow_two_sub_one_eq_mod]

/-- C5: the half-precision decode of a 16-bit pattern with sign bit `S`,
exponent field `E` and fraction field `F` is: `sign * 2⁻¹⁴ * (F/1024)` when
`E = 0`; `sign * 2^(E−15) * (1 + F/1024)` when `1 ≤ E ≤ 30`; signed
infinity when `E = 31` and `F = 0`; NaN when `E = 31` and `F ≠ 0` — with
`sign = −1` iff `S = 1`. -/
theorem C5_float16_decode (S E F : Nat) (hS : S < 2) (hE : E < 32) (hF : F < 1024) :
    reinterpretUint16AsFloat16 (S * 2 ^ 15 + E * 2 ^ 10 + F) =
      (if E = 0 then
        .finite (((if S = 1 then -1 else 1 : Int) : ℚ) * (2 : ℚ) ^ (-14 : Int) *
          ((F : ℚ) / 1024))
      else if E = 31 then
        (if F = 0 then .inf (if S = 1 then -1 else 1) else .nan)
      else
        .finite (((if S = 1 then -1 else 1 : Int) : ℚ) * (2 : ℚ) ^ ((E : Int) - 15) *
          (1 + (F : ℚ) / 1024))) := by
  have hshift : (1 : Nat) <<< 15 = 0x8000 := by decide
  have hsign : (S * 2 ^ 15 + E * 2 ^ 10 + F) &&& 0x8000 = 2 ^ 15 * S := by
    rw [and_0x8000_eq]
    have : (S * 2 ^ 15 + E * 2 ^ 10 + F) / 2 ^ 15 = S := by omega
    rw [this]
    congr 1
    omega
  have hexp : ((S * 2 ^ 15 + E * 2 ^ 10 + F) &&& 0x7c00) >>> 10 = E := by
    rw [and_0x7c00_shift_eq]
    omega
  have hfrac : (S * 2 ^ 15 + E * 2 ^ 10 + F) &&& 0x03ff = F := by
    rw [and_0x03ff_eq]
    omega
  have hsigncond : ((S * 2 ^ 15 + E * 2 ^ 10 + F) &&& 0x8000 ≠ 0) ↔ S = 1 := by
    rw [hsign]
    omega
  simp only [reinterpretUint16AsFloat16]
  rw [hshift, hexp, hfrac, hsign]
  have hcases : S = 0 ∨ S = 1 := by omega
  rcases hcases with h | h <;> subst h <;> simp

/-- Witness for C5 at the pattern `0x C200` (`S = 1`, `E = 16`, `F = 512`,
the half value −3). -/
theorem C5_float16_decode_witness :
    reinterpretUint16AsFloat16 (1 * 2 ^ 15 + 16 * 2 ^ 10 + 512) =
      (if (16 : Nat) = 0 then
        .finite (((if (1 : Nat) = 1 then -1 else 1 : Int) : ℚ) * (2 : ℚ) ^ (-14 : Int) *
          ((512 : ℚ) / 1024))
      else if (16 : Nat) = 31 then
        (if (512 : Nat) = 0 then .inf (if (1 : Nat) = 1 then -1 else 1) else .nan)
      else
        .finite (((if (1 : Nat) = 1 then -1 else 1 : Int) : ℚ) *
          (2 : ℚ) ^ (((16 : Nat) : Int) - 15) * (1 + ((512 : Nat) : ℚ) / 1024))) :=
  C5_float16_decode 1 16 512 (by decide) (by decide) (by decide)

/-- Extracting the LEB128 continuation bit: `x & 0x80` is `2 ^ 7` times
bit 7. -/
theorem and_0x80_eq (x : Nat) : x &&& 0x80 = 2 ^ 7 * (x / 2 ^ 7 % 2) := by
  have hc0 : (0x80 : Nat) &&& (2 ^ 7 - 1) = 0 := by decide
  have h1 : (x &&& 0x80) % 2 ^ 7 = 0 := by
    calc (x &&& 0x80) % 2 ^ 7
        = (x &&& 0x80) &&& (2 ^ 7 - 1) := (Nat.and_pow_two_sub_one_eq_mod _ _).symm
      _ = x &&& (0x80 &&& (2 ^ 7 - 1)) := Nat.and_assoc _ _ _
      _ = 0 := by rw [hc0, Nat.and_zero]
  have h2 : (x &&& 0x80) / 2 ^ 7 = x / 2 ^ 7 % 2 := by
    have hs : (x &&& 0x80) >>> 7 = (x >>> 7) &&& (0x80 >>> 7) :=
      shiftRight_and_distrib x 0x80 7
    have hc : (0x80 : Nat) >>> 7 = 1 := by decide
    rw [hc] at hs
    rw [← Nat.shiftRight_eq_div_pow, hs, Nat.and_one_is_mod, Nat.shiftRight_eq_div_pow]
  omega

/-- The low 7 bits: `x & 0x7f = x % 128`. -/
theorem and_0x7f_eq (x : Nat) : x &&& 0x7f = x % 2 ^ 7 := by
  have : (0x7f : Nat) = 2 ^ 7 - 1 := by norm_num
  rw [this, Nat.and_pow_two_sub_one_eq_mod]

/-- The low 4 bits: `x & 0x0f = x % 16`. -/
theorem and_0x0f_eq (x : Nat) : x &&& 0x0f = x % 2 ^ 4 := by
  have : (0x0f : Nat) = 2 ^ 4 - 1 := by norm_num
  rw [this, Nat.and_pow_two_sub_one_eq_mod]

/-- The continuation byte emitted by the encoder is `128 + (v % 128)`. -/
theorem leb128_cont_byte (v : Nat) : (v % 0x80) ||| 0x80 = 128 + v % 128 := by
  have h := Nat.mul_add_lt_is_or (b := v % 128) (i := 7) (Nat.mod_lt v (by norm_num)) 1
  have h128 : (2 : Nat) ^ 7 * 1 = 128 := by norm_num
  rw [h128] at h
  calc (v % 0x80) ||| 0x80 = 0x80 ||| (v % 0x80) := Nat.lor_comm _ _
    _ = 128 + v % 128 := h.symm

/-- Helper for C2: running the decode loop from byte index `i` on a reader
whose remaining bytes start with the encoding of `v` (with `v` small enough
that the encoding uses at most the remaining `5 - i` loop iterations) adds
`v * 2 ^ (7 * i)` to the accumulator and consumes exactly the encoding. -/
theorem leb128_decode_encode_go :
    ∀ v i, i ≤ 4 → v < 2 ^ (32 - 7 * i) →
      ∀ (s : ReadableStream) (result : Nat) (suf : List Nat),
        s.bytes.drop s.bytePos = leb128Encode v ++ suf →
        ReadableStream.readUint32Leb128Go s result i =
          (result + v * 2 ^ (7 * i),
           { s with bytePos := s.bytePos + (leb128Encode v).length }) := by
  intro v
  induction v using Nat.strong_induction_on with
  | _ v ih =>
    intro i hi hv s result suf hdrop
    have hi5 : i < 5 := by omega
    rw [ReadableStream.readUint32Leb128Go]
    simp only [hi5, dif_pos]
    by_cases hv128 : v < 0x80
    · -- single byte `v`, continuation bit clear: the loop stops here
      rw [leb128Encode, dif_pos hv128] at hdrop
      have hbyte : s.bytes[s.bytePos]? = some v := by
        have h0 : (s.bytes.drop s.bytePos)[0]? = some v := by rw [hdrop]; simp
        rwa [List.getElem?_drop, Nat.add_zero] at h0
      have hat : jsByteAt s.bytes s.bytePos = v := by simp [jsByteAt, hbyte]
      have hcont : v &&& (1 <<< 7) = 0 := by
        have h1 : (1 : Nat) <<< 7 = 0x80 := by decide
        have h2 : v / 2 ^ 7 = 0 := by omega
        rw [h1, and_0x80_eq, h2]
        simp
      have hlen : (leb128Encode v).length = 1 := by
        rw [leb128Encode, dif_pos hv128]
        rfl
      rw [hat, if_pos hcont, hlen]
      by_cases hi4 : i < 4
      · have hand : v &&& 0x7f = v := by rw [and_0x7f_eq]; omega
        rw [if_pos hi4, hand, Nat.shiftLeft_eq]
      · have hieq : i = 4 := by omega
        subst hieq
        have hand : v &&& 0x0f = v := by
          rw [and_0x0f_eq]
          norm_num at hv
          omega
        rw [if_neg hi4, hand]
    · -- continuation byte `128 + v % 128`, then the encoding of `v / 128`
      rw [leb128Encode, dif_neg hv128] at hdrop
      have hi4 : i < 4 := by
        by_contra hcon
        have hieq : i = 4 := by omega
        subst hieq
        norm_num at hv
        omega
      have hbv : (v % 0x80) ||| 0x80 = 128 + v % 128 := leb128_cont_byte v
      rw [hbv] at hdrop
      have hbyte : s.bytes[s.bytePos]? = some (128 + v % 128) := by
        have h0 : (s.bytes.drop s.bytePos)[0]? = some (128 + v % 128) := by
          rw [hdrop]
          simp
        rwa [List.getElem?_drop, Nat.add_zero] at h0
      have hat : jsByteAt s.bytes s.bytePos = 128 + v % 128 := by simp [jsByteAt, hbyte]
      have hcont : ¬ ((128 + v % 128) &&& (1 <<< 7) = 0) := by
        have h1 : (1 : Nat) <<< 7 = 0x80 := by decide
        have h2 : (128 + v % 128) / 2 ^ 7 = 1 := by omega
        rw [h1, and_0x80_eq, h2]
        norm_num
      have hand : (128 + v % 128) &&& 0x7f = v % 128 := by rw [and_0x7f_eq]; omega
      rw [hat, if_neg hcont, if_pos hi4, hand, Nat.shiftLeft_eq]
      -- the recursive call consumes the encoding of `v / 128`
      have hrec := ih (v / 0x80) (Nat.div_lt_self (by omega) (by norm_num)) (i + 1)
        (by omega)
        (by
          have hmul : (2 : Nat) ^ (32 - 7 * (i + 1)) * 2 ^ 7 = 2 ^ (32 - 7 * i) := by
            rw [← Nat.pow_add]
            congr 1
            omega
          have hv2 : v < 2 ^ (32 - 7 * (i + 1)) * 2 ^ 7 := by rw [hmul]; exact hv
          have h27 : (2 : Nat) ^ 7 = 128 := by norm_num
          rw [h27] at hv2
          omega)
        { s with bytePos := s.bytePos + 1 }
        (result + v % 128 * 2 ^ (7 * i)) suf
        (by
          have h1 : s.bytes.drop (s.bytePos + 1) = (s.bytes.drop s.bytePos).drop 1 := by
            rw [List.drop_drop]
          rw [h1, hdrop]
          rfl)
      simp only at hrec
      rw [hrec]
      have hval : result + v % 128 * 2 ^ (7 * i) + v / 0x80 * 2 ^ (7 * (i + 1)) =
          result + v * 2 ^ (7 * i) := by
        have h1 : (2 : Nat) ^ (7 * (i + 1)) = 2 ^ (7 * i) * 128 := by
          have h7 : 7 * (i + 1) = 7 * i + 7 := by omega
          rw [h7, Nat.pow_add]
        have h2 : v % 128 + 128 * (v / 128) = v := Nat.mod_add_div v 128
        rw [h1]
        calc result + v % 128 * 2 ^ (7 * i) + v / 0x80 * (2 ^ (7 * i) * 128)
            = result + (v % 128 + 128 * (v / 128)) * 2 ^ (7 * i) := by ring
          _ = result + v * 2 ^ (7 * i) := by rw [h2]
      rw [hval]
      have hlen : (leb128Encode v).length = 1 + (leb128Encode (v / 0x80)).length := by
        rw [leb128Encode, dif_neg hv128]
        simp [Nat.add_comm]
      rw [hlen, ← Nat.add_assoc]

/-- C2: for every 32-bit value `v`, decoding the bytes produced by the
writer's LEB128 encoder yields `v` back, and the encoding of `4294967295`
is exactly the 5 bytes `[0xff, 0xff, 0xff, 0xff, 0x0f]`. -/
theorem C2_leb128_roundtrip (v : Nat) (hv : v < 2 ^ 32) :
    (ReadableStream.readUint32Leb128
        (mkReadableStream (mkWritableStream.writeUint32Leb128 v).getBytes.1 0)).1 = v ∧
    (mkWritableStream.writeUint32Leb128 4294967295).getBytes.1 =
      [0xff, 0xff, 0xff, 0xff, 0x0f] := by
  have henc : ∀ w, (mkWritableStream.writeUint32Leb128 w).getBytes.1 = leb128Encode w := by
    intro w
    simp [mkWritableStream, WritableStream.writeUint32Leb128, WritableStream.getBytes,
      concatBytes]
  constructor
  · rw [henc, ReadableStream.readUint32Leb128]
    have h := leb128_decode_encode_go v 0 (by omega) (by simpa using hv)
      (mkReadableStream (leb128Encode v) 0) 0 []
      (by simp [mkReadableStream])
    rw [h]
    simp
  · rw [henc]
    simp [leb128Encode]

/-- Witness for C2 at `v = 4294967295`. -/
theorem C2_leb128_roundtrip_witness :
    (ReadableStream.readUint32Leb128
        (mkReadableStream (mkWritableStream.writeUint32Leb128 4294967295).getBytes.1 0)).1 =
      4294967295 ∧
    (mkWritableStream.writeUint32Leb128 4294967295).getBytes.1 =
      [0xff, 0xff, 0xff, 0xff, 0x0f] :=
  C2_leb128_roundtrip 4294967295 (by norm_num)

/-- C7: `readNulUtf8` scans forward from `bytePos` for a zero byte; when no
zero byte exists up to the end of the buffer it fails with
`IncompleteStream`; when the first zero byte at or after `bytePos` sits at
index `j`, it decodes exactly the bytes strictly between `bytePos` and `j`
as strict UTF-8 (never a truncated prefix) and sets `bytePos` to `j + 1`,
consuming but not including the NUL. -/
theorem C7_readNulUtf8_spec (s : ReadableStream) :
    ((∀ i, s.bytePos ≤ i → s.bytes[i]? ≠ some 0) →
        s.readNulUtf8 = .error .incompleteStream) ∧
    (∀ j, s.bytePos ≤ j → s.bytes[j]? = some 0 →
      (∀ i, s.bytePos ≤ i → i < j → s.bytes[i]? ≠ some 0) →
      ∀ cps, utf8Decode ((s.bytes.take j).drop s.bytePos) = some cps →
        s.readNulUtf8 = .ok (cps, { s with bytePos := j + 1 })) := by
  constructor
  · intro h
    have hnone : (s.bytes.drop s.bytePos).findIdx? (fun b => b == 0) = none := by
      rw [List.findIdx?_eq_none_iff]
      intro x hx
      obtain ⟨k, hk⟩ := List.mem_iff_getElem?.mp hx
      rw [List.getElem?_drop] at hk
      have hx0 : x ≠ 0 := by
        intro h0
        subst h0
        exact h (s.bytePos + k) (by omega) hk
      simp [hx0]
    rw [ReadableStream.readNulUtf8]
    simp only [jsIndexOf, hnone]
    rfl
  · intro j hpj hj0 hmin cps hdec
    have hjlt : j < s.bytes.length := by
      rcases List.getElem?_eq_some.mp hj0 with ⟨hlt, _⟩
      exact hlt
    have hidx : (s.bytes.drop s.bytePos).findIdx? (fun b => b == 0) =
        some (j - s.bytePos) := by
      rw [List.findIdx?_eq_some_iff_getElem]
      have hlen : j - s.bytePos < (s.bytes.drop s.bytePos).length := by
        rw [List.length_drop]
        omega
      refine ⟨hlen, ?_, ?_⟩
      · have hval : (s.bytes.drop s.bytePos)[j - s.bytePos]? = some 0 := by
          rw [List.getElem?_drop]
          have : s.bytePos + (j - s.bytePos) = j := by omega
          rw [this]
          exact hj0
        rcases List.getElem?_eq_some.mp hval with ⟨hlt2, hv2⟩
        simp [hv2]
      · intro k hk
        have hkl : k < (s.bytes.drop s.bytePos).length := by omega
        have hvalk : (s.bytes.drop s.bytePos)[k]? =
            some ((s.bytes.drop s.bytePos).get ⟨k, hkl⟩) := by
          simp
        rw [List.getElem?_drop] at hvalk
        have hne : s.bytes[s.bytePos + k]? ≠ some 0 :=
          hmin (s.bytePos + k) (by omega) (by omega)
        have : (s.bytes.drop s.bytePos).get ⟨k, hkl⟩ ≠ 0 := by
          intro h0
          rw [h0] at hvalk
          exact hne hvalk
        simpa using this
    rw [ReadableStream.readNulUtf8]
    simp only [jsIndexOf, hidx]
    have hj : s.bytePos + (j - s.bytePos) = j := by omega
    rw [hj]
    have hnonneg : ¬ ((j : Int) < 0) := by omega
    simp only [hnonneg, if_neg, reduceIte, Int.toNat_natCast]
    rw [jsSubarray] at *
    rw [hdec]

/-- Witness for C7 on the buffer `[0x41, 0xc3, 0xa9, 0x00, 0x42]` (the
UTF-8 of "Aé", a NUL, then junk): decodes to code points `[65, 233]` and
leaves `bytePos = 4`. -/
theorem C7_readNulUtf8_witness :
    (mkReadableStream [0x41, 0xc3, 0xa9, 0x00, 0x42] 0).readNulUtf8 =
      .ok ([65, 233],
        { mkReadableStream [0x41, 0xc3, 0xa9, 0x00, 0x42] 0 with bytePos := 3 + 1 }) :=
  (C7_readNulUtf8_spec (mkReadableStream [0x41, 0xc3, 0xa9, 0x00, 0x42] 0)).2 3
    (by decide) (by decide)
    (by
      intro i h1 h2
      match i with
      | 0 => decide
      | 1 => decide
      | 2 => decide)
    [65, 233]
    (by decide)

/-- Helper for C8: the byte-comparing loop of `equals` returns `true` iff
the two buffers agree (as optional values) at every compared offset. -/
theorem equalsLoop_eq_true_iff :
    ∀ fuel lb rb lp rp len i, len - i ≤ fuel →
      (ReadableStream.equalsLoop lb rb lp rp i len = true ↔
        ∀ k, i ≤ k → k < len → lb[lp + k]? = rb[rp + k]?) := by
  intro fuel
  induction fuel with
  | zero =>
    intro lb rb lp rp len i hf
    have hi : ¬ i < len := by omega
    rw [ReadableStream.equalsLoop, dif_neg hi]
    constructor
    · intro _ k hk1 hk2
      omega
    · intro _
      rfl
  | succ f ih =>
    intro lb rb lp rp len i hf
    rw [ReadableStream.equalsLoop]
    by_cases hi : i < len
    · rw [dif_pos hi]
      by_cases heq : lb[lp + i]? = rb[rp + i]?
      · rw [if_pos heq, ih lb rb lp rp len (i + 1) (by omega)]
        constructor
        · intro h k hk1 hk2
          by_cases hki : k = i
          · subst hki
            exact heq
          · exact h k (by omega) hk2
        · intro h k hk1 hk2
          exact h k (by omega) hk2
      · rw [if_neg heq]
        constructor
        · intro h
          cases h
        · intro hall
          exact absurd (hall i (by omega) hi) heq
    · rw [dif_neg hi]
      constructor
      · intro _ k hk1 hk2
        omega
      · intro _
        rfl

/-- C8: `equals(L, R)` is `true` iff the two readers have the same `bitPos`
and expose the same remaining bytes from their respective cursors to their
respective ends, byte for byte, with the first byte compared only on its low
`8 − bitPos` bits when `bitPos ≠ 0` — in particular readers at different
absolute offsets with identical remaining content compare equal. -/
theorem C8_equals_iff (l r : ReadableStream)
    (hl : l.bytePos ≤ l.byteEnd) (hr : r.bytePos ≤ r.byteEnd)
    (hle : l.byteEnd = l.bytes.length) (hre : r.byteEnd = r.bytes.length) :
    ReadableStream.equals l r = true ↔
      (l.bitPos = r.bitPos ∧ specMaskedRemaining l = specMaskedRemaining r) := by
  have hlenL : (l.bytes.drop l.bytePos).length = l.byteEnd - l.bytePos := by
    rw [List.length_drop, hle]
  have hlenR : (r.bytes.drop r.bytePos).length = r.byteEnd - r.bytePos := by
    rw [List.length_drop, hre]
  have hml : (specMaskedRemaining l).length = (l.bytes.drop l.bytePos).length := by
    rw [specMaskedRemaining.eq_def]
    cases hcl : l.bytes.drop l.bytePos <;> simp
  have hmr : (specMaskedRemaining r).length = (r.bytes.drop r.bytePos).length := by
    rw [specMaskedRemaining.eq_def]
    cases hcr : r.bytes.drop r.bytePos <;> simp
  rw [ReadableStream.equals]
  by_cases hbp : l.bitPos = r.bitPos
  · rw [if_neg (not_not_intro hbp)]
    by_cases hlen : ((l.byteEnd : Int) - l.bytePos) = ((r.byteEnd : Int) - r.bytePos)
    · rw [if_neg (not_not_intro hlen)]
      have hlenNat : l.byteEnd - l.bytePos = r.byteEnd - r.bytePos := by omega
      by_cases hzero : ((l.byteEnd : Int) - l.bytePos) = 0
      · -- both remainders are empty
        rw [if_pos hzero]
        have hLnil : l.bytes.drop l.bytePos = [] := by
          have hz : (l.bytes.drop l.bytePos).length = 0 := by omega
          exact List.length_eq_zero.mp hz
        have hRnil : r.bytes.drop r.bytePos = [] := by
          have hz : (r.bytes.drop r.bytePos).length = 0 := by omega
          exact List.length_eq_zero.mp hz
        have hsl : specMaskedRemaining l = [] := by
          rw [specMaskedRemaining.eq_def, hLnil]
        have hsr : specMaskedRemaining r = [] := by
          rw [specMaskedRemaining.eq_def, hRnil]
        simp [hsl, hsr, hbp]
      · -- both remainders are nonempty
        rw [if_neg hzero]
        have hneL : l.bytes.drop l.bytePos ≠ [] := by
          intro hnil
          rw [hnil] at hlenL
          simp only [List.length_nil] at hlenL
          omega
        obtain ⟨bl, restL, hL⟩ := List.exists_cons_of_ne_nil hneL
        have hneR : r.bytes.drop r.bytePos ≠ [] := by
          intro hnil
          rw [hnil] at hlenR
          simp only [List.length_nil] at hlenR
          omega
        obtain ⟨br, restR, hR⟩ := List.exists_cons_of_ne_nil hneR
        have hblv : l.bytes[l.bytePos]? = some bl := by
          have h0 : (l.bytes.drop l.bytePos)[0]? = some bl := by rw [hL]; simp
          rwa [List.getElem?_drop, Nat.add_zero] at h0
        have hbrv : r.bytes[r.bytePos]? = some br := by
          have h0 : (r.bytes.drop r.bytePos)[0]? = some br := by rw [hR]; simp
          rwa [List.getElem?_drop, Nat.add_zero] at h0
        have hrlL : restL.length + 1 = l.byteEnd - l.bytePos := by
          have hc := hlenL
          rw [hL] at hc
          simpa [Nat.add_comm] using hc
        have hrlR : restR.length + 1 = r.byteEnd - r.bytePos := by
          have hc := hlenR
          rw [hR] at hc
          simpa [Nat.add_comm] using hc
        have htoNat : ((l.byteEnd : Int) - (l.bytePos : Int)).toNat =
            l.byteEnd - l.bytePos := by omega
        have htails : ∀ start : Nat,
            (ReadableStream.equalsLoop l.bytes r.bytes l.bytePos r.bytePos start
                ((l.byteEnd : Int) - (l.bytePos : Int)).toNat = true ↔
              ∀ k, start ≤ k → k < l.byteEnd - l.bytePos →
                l.bytes[l.bytePos + k]? = r.bytes[r.bytePos + k]?) := by
          intro start
          rw [htoNat]
          exact equalsLoop_eq_true_iff (l.byteEnd - l.bytePos) l.bytes r.bytes
            l.bytePos r.bytePos (l.byteEnd - l.bytePos) start (by omega)
        have hdropidx : ∀ k, (l.bytes.drop l.bytePos)[k]? = l.bytes[l.bytePos + k]? :=
          fun k => List.getElem?_drop _ _ _
        have hdropidxR : ∀ k, (r.bytes.drop r.bytePos)[k]? = r.bytes[r.bytePos + k]? :=
          fun k => List.getElem?_drop _ _ _
        have hrest_iff : restL = restR ↔
            ∀ k, 1 ≤ k → k < l.byteEnd - l.bytePos →
              l.bytes[l.bytePos + k]? = r.bytes[r.bytePos + k]? := by
          constructor
          · intro hrs k hk1 hk2
            rw [← hdropidx k, ← hdropidxR k, hL, hR]
            cases k with
            | zero => omega
            | succ k2 =>
              simp only [List.getElem?_cons_succ]
              rw [hrs]
          · intro hall
            apply List.ext_getElem?
            intro k
            have h1 : restL[k]? = (l.bytes.drop l.bytePos)[k + 1]? := by
              rw [hL]
              simp
            have h2 : restR[k]? = (r.bytes.drop r.bytePos)[k + 1]? := by
              rw [hR]
              simp
            by_cases hkin : k + 1 < l.byteEnd - l.bytePos
            · rw [h1, h2, hdropidx, hdropidxR]
              exact hall (k + 1) (by omega) hkin
            · rw [h1, h2, hdropidx, hdropidxR]
              have hn1 : l.bytes[l.bytePos + (k + 1)]? = none := by
                rw [List.getElem?_eq_none]
                omega
              have hn2 : r.bytes[r.bytePos + (k + 1)]? = none := by
                rw [List.getElem?_eq_none]
                omega
              rw [hn1, hn2]
        by_cases hb0 : l.bitPos ≠ 0
        · -- mid-byte: masked first byte, then byte-for-byte from index 1
          rw [if_pos hb0]
          have hatl : jsByteAt l.bytes l.bytePos = bl := by simp [jsByteAt, hblv]
          have hatr : jsByteAt r.bytes r.bytePos = br := by simp [jsByteAt, hbrv]
          rw [hatl, hatr]
          have hspecL : specMaskedRemaining l =
              (bl &&& ((1 <<< (8 - l.bitPos)) - 1)) :: restL := by
            rw [specMaskedRemaining.eq_def, hL]
            simp [hb0]
          have hspecR : specMaskedRemaining r =
              (br &&& ((1 <<< (8 - l.bitPos)) - 1)) :: restR := by
            rw [specMaskedRemaining.eq_def, hR]
            simp [← hbp, hb0]
          rw [hspecL, hspecR]
          by_cases hmask : bl &&& ((1 <<< (8 - l.bitPos)) - 1) =
              br &&& ((1 <<< (8 - l.bitPos)) - 1)
          · rw [if_neg (not_not_intro hmask), htails 1, ← hrest_iff]
            constructor
            · intro h
              exact ⟨hbp, by rw [hmask, h]⟩
            · rintro ⟨-, hspec⟩
              injection hspec with _ htl
          · rw [if_pos hmask]
            constructor
            · intro h
              cases h
            · rintro ⟨-, hspec⟩
              injection hspec with hhd _
              exact absurd hhd hmask
        · -- byte-aligned: plain byte-for-byte comparison from index 0
          rw [if_neg hb0]
          have hb0' : l.bitPos = 0 := by simpa using hb0
          rw [htails 0]
          have hspecL : specMaskedRemaining l = bl :: restL := by
            rw [specMaskedRemaining.eq_def, hL]
            simp [hb0']
          have hspecR : specMaskedRemaining r = br :: restR := by
            rw [specMaskedRemaining.eq_def, hR]
            simp [← hbp, hb0']
          rw [hspecL, hspecR]
          constructor
          · intro hall
            refine ⟨hbp, ?_⟩
            have hhead := hall 0 (by omega) (by omega)
            rw [Nat.add_zero, Nat.add_zero, hblv, hbrv] at hhead
            injection hhead with hbl_br
            rw [hbl_br]
            have htl : restL = restR :=
              hrest_iff.mpr (fun k hk1 hk2 => hall k (by omega) hk2)
            rw [htl]
          · rintro ⟨-, hspec⟩
            injection hspec with hhead htail
            intro k hk1 hk2
            cases k with
            | zero =>
              rw [Nat.add_zero, Nat.add_zero, hblv, hbrv, hhead]
            | succ k2 =>
              exact hrest_iff.mp htail (k2 + 1) (by omega) hk2
    · -- differing remaining lengths: `equals` is false and the spec lists differ
      rw [if_pos hlen]
      constructor
      · intro h
        cases h
      · rintro ⟨-, hspec⟩
        exfalso
        have hlens := congrArg List.length hspec
        rw [hml, hmr] at hlens
        omega
  · -- differing bit offsets: `equals` is false and the spec requires equality
    rw [if_pos hbp]
    constructor
    · intro h
      cases h
    · rintro ⟨hbpeq, -⟩
      exact absurd hbpeq hbp

/-- Witness for C8: two readers at different absolute offsets, `bitPos = 3`,
identical remaining content (`0xab` and `0x2b` agree on their low 5 bits). -/
theorem C8_equals_iff_witness :
    ReadableStream.equals ⟨[1, 0xab, 0xcd], 1, 3, 3⟩ ⟨[0x2b, 0xcd], 0, 2, 3⟩ = true ↔
      ((3 : Nat) = 3 ∧
        specMaskedRemaining ⟨[1, 0xab, 0xcd], 1, 3, 3⟩ =
          specMaskedRemaining ⟨[0x2b, 0xcd], 0, 2, 3⟩) :=
  C8_equals_iff ⟨[1, 0xab, 0xcd], 1, 3, 3⟩ ⟨[0x2b, 0xcd], 0, 2, 3⟩
    (by decide) (by decide) (by decide) (by decide)

end OpenFlashStream
